import Mathlib

/-!
Verification of the proximity association engine of `src/app.py`.

The engine consumes a stream of labeled entity spans (PERSON / LOC) with
global word positions and maintains
  - an aggregate map from person name to a record with an appearance count
    and a map of associated location counts (Python: an insertion-ordered
    `dict`, embedded here as an association list keyed by the `name` field);
  - two buffers of positional entities (`people_entities_buffer`,
    `loc_entities_buffer`).

Every definition below is a direct shallow embedding of the corresponding
function in `src/app.py` (line numbers in the doc comments); stateful code
is embedded by explicit state passing, and the `KeyError` that the
unguarded lookup `output_dict[person["name"]]` can raise is embedded as
`Option`.
-/

set_option autoImplicit false

namespace App

/-- Embeds `PositionalEntityDict` (app.py lines 37-50): a named entity with
global start and end word positions.  The Python key `end` is a Lean
keyword, so the field is called `end_`. -/
structure PositionalEntityDict where
  name : String
  start : Int
  end_ : Int
deriving DecidableEq

/-- One entry of the nested `locations` mapping of a `NamedEntityDict`
(app.py lines 30-34): in the source these values are `NamedEntityDict`s
whose optional `locations` field is never set, so they carry only a name
and a count. -/
structure LocationCount where
  name : String
  count : Nat
deriving DecidableEq

/-- Embeds `NamedEntityDict` (app.py lines 22-34) in its role as a value of
`output_dict`: a person name, its appearance count, and the associated
location counts.  The Python inner `dict` is insertion ordered; it is
embedded as a list of entries in insertion order, keyed by `name`. -/
structure NamedEntityDict where
  name : String
  count : Nat
  locations : List LocationCount
deriving DecidableEq

/-- Lookup in the nested `locations` dict: first entry with the given name. -/
def loc_lookup : List LocationCount → String → Option LocationCount
  | [], _ => none
  | r :: rest, n => if r.name = n then some r else loc_lookup rest n

/-- The count stored for a location name, `0` when the name is absent. -/
def get_loc_count (locations : List LocationCount) (m : String) : Nat :=
  match loc_lookup locations m with
  | none => 0
  | some r => r.count

/-- Embeds `update_locations` (app.py lines 383-396): if the location name
is absent, insert a record with count `0`; then increment the count of the
record under that name.  Net effect: an absent name is appended with count
`1`, a present name has its count incremented. -/
def update_locations (locations : List LocationCount) (location_name : String) :
    List LocationCount :=
  match loc_lookup locations location_name with
  | some _ =>
      locations.map fun r =>
        if r.name = location_name then { r with count := r.count + 1 } else r
  | none => locations ++ [{ name := location_name, count := 1 }]

/-- Lookup in `output_dict` (a Python `dict[str, NamedEntityDict]`,
embedded as an insertion-ordered association list keyed by `name`). -/
def dict_lookup : List NamedEntityDict → String → Option NamedEntityDict
  | [], _ => none
  | r :: rest, n => if r.name = n then some r else dict_lookup rest n

/-- In-place update of the record stored under a name in `output_dict`
(Python mutates the record object; keys and their order are unchanged). -/
def dict_update (d : List NamedEntityDict) (n : String)
    (f : NamedEntityDict → NamedEntityDict) : List NamedEntityDict :=
  d.map fun r => if r.name = n then f r else r

/-- Embeds `handle_positional_entity_buffer` (app.py lines 349-380).
Line 377 computes `abs(end - start) > max_range`.  Line 379,
`positional_entity_buffer[len(positional_entity_buffer) - iteration:]`, is
an expression statement: the slice is computed and its value is discarded,
so the buffer is never modified; the returned first component is the
buffer exactly as passed in.  (The slice is evaluated here as a discarded
`let` unconditionally; since it is pure and unused this is equivalent.) -/
def handle_positional_entity_buffer (positional_entity_buffer : List PositionalEntityDict)
    (end_ start : Int) (iteration : Nat) (max_range : Nat) :
    List PositionalEntityDict × Bool :=
  let is_outside_max_range : Bool := decide (max_range < (end_ - start).natAbs)
  let _sliced := positional_entity_buffer.drop
    (positional_entity_buffer.length - iteration)
  (positional_entity_buffer, is_outside_max_range)

/-- The engine state: `output_dict` and the two buffers of
`handle_text_file_computation` (app.py lines 164-167), threaded through
the handlers by mutation in the source and by explicit state passing here. -/
structure EngineState where
  output_dict : List NamedEntityDict
  people_entities_buffer : List PositionalEntityDict
  loc_entities_buffer : List PositionalEntityDict
deriving DecidableEq

/-- The loop of app.py lines 303-311: iterate over
`reversed(loc_entities_buffer)` (the fixed list `loc_rev`), calling
`handle_positional_entity_buffer` (whose boolean result is ignored by the
source) and then unconditionally `update_locations` for every scanned
candidate.  `full_buf` is the live buffer passed to
`handle_positional_entity_buffer`; it is never modified. -/
def person_scan (full_buf : List PositionalEntityDict) (locations : List LocationCount)
    (loc_rev : List PositionalEntityDict) (p_start : Int) (i : Nat) :
    List LocationCount :=
  match loc_rev with
  | [] => locations
  | loc :: rest =>
      let _call := handle_positional_entity_buffer full_buf loc.end_ p_start i 100
      person_scan full_buf (update_locations locations loc.name) rest p_start (i + 1)

/-- The count increment of app.py line 301 on a record. -/
def bump_count (r : NamedEntityDict) : NamedEntityDict :=
  { r with count := r.count + 1 }

/-- The effect of the scan loop of app.py lines 302-311 on a record:
replace its `locations` by the result of scanning the whole reversed
location buffer. -/
def scan_locations (buf : List PositionalEntityDict) (p_start : Int)
    (r : NamedEntityDict) : NamedEntityDict :=
  { r with locations := person_scan buf r.locations buf.reverse p_start 0 }

/-- Embeds `handle_person_entity_update` (app.py lines 276-311) in
state-passing form: append the entity to `people_entities_buffer`, create
the record under its name with count `0` when absent, increment the count,
then run the scan loop over the reversed location buffer, mutating the
record's `locations`. -/
def handle_person_entity_update (entity_dict : PositionalEntityDict)
    (s : EngineState) : EngineState :=
  let people' := s.people_entities_buffer ++ [entity_dict]
  let name := entity_dict.name
  let d0 :=
    if (dict_lookup s.output_dict name).isSome then s.output_dict
    else s.output_dict ++ [{ name := name, count := 0, locations := [] }]
  let d1 := dict_update d0 name bump_count
  let d2 := dict_update d1 name (scan_locations s.loc_entities_buffer entity_dict.start)
  { output_dict := d2,
    people_entities_buffer := people',
    loc_entities_buffer := s.loc_entities_buffer }

/-- The effect of app.py lines 345-346 on a person record: update its
`locations` with the incoming location's name. -/
def add_loc (location_name : String) (r : NamedEntityDict) : NamedEntityDict :=
  { r with locations := update_locations r.locations location_name }

/-- The loop of app.py lines 336-346: iterate over
`reversed(people_entities_buffer)` (the fixed list `people_rev`); if the
candidate is outside the range, `break` (return the dict unchanged);
otherwise perform the unguarded lookup `output_dict[person["name"]]`
(`none` embeds the `KeyError`) and update that person's `locations` with
the incoming location's name. -/
def loc_scan (output_dict : List NamedEntityDict)
    (people_buf : List PositionalEntityDict)
    (people_rev : List PositionalEntityDict)
    (l : PositionalEntityDict) (i : Nat) : Option (List NamedEntityDict) :=
  match people_rev with
  | [] => some output_dict
  | person :: rest =>
      if (handle_positional_entity_buffer people_buf person.end_ l.start i 100).2 then
        some output_dict
      else
        match dict_lookup output_dict person.name with
        | none => none
        | some _ =>
            loc_scan (dict_update output_dict person.name (add_loc l.name))
              people_buf rest l (i + 1)

/-- Embeds `handle_loc_entity_update` (app.py lines 314-346) in
state-passing form: append the entity to `loc_entities_buffer`, then run
the scan loop over the reversed people buffer. -/
def handle_loc_entity_update (entity_dict : PositionalEntityDict)
    (s : EngineState) : Option EngineState :=
  let locs' := s.loc_entities_buffer ++ [entity_dict]
  match loc_scan s.output_dict s.people_entities_buffer
      s.people_entities_buffer.reverse entity_dict 0 with
  | none => none
  | some d' =>
      some { output_dict := d',
             people_entities_buffer := s.people_entities_buffer,
             loc_entities_buffer := locs' }

/-- The two labels that reach the engine (app.py line 221 filters all
others; spaCy's `LOC` is the spec's LOCATION). -/
inductive EntityLabel where
  | PERSON
  | LOC
deriving DecidableEq

/-- Embeds `handle_positional_entity_update` (app.py lines 237-273):
dispatch on the label. -/
def handle_positional_entity_update (label : EntityLabel)
    (entity_dict : PositionalEntityDict) (s : EngineState) : Option EngineState :=
  match label with
  | .PERSON => some (handle_person_entity_update entity_dict s)
  | .LOC => handle_loc_entity_update entity_dict s

/-- One element of the entity stream: a label and a positional entity. -/
abbrev LabeledEntity := EntityLabel × PositionalEntityDict

/-- Process a stream of labeled entities in order (the per-entity loop of
`handle_entities_from_doc`, app.py lines 219-234, across all lines). -/
def processStream : List LabeledEntity → EngineState → Option EngineState
  | [], s => some s
  | e :: rest, s =>
      match handle_positional_entity_update e.1 e.2 s with
      | none => none
      | some s' => processStream rest s'

/-- The fresh state of app.py lines 164-167. -/
def emptyState : EngineState :=
  { output_dict := [], people_entities_buffer := [], loc_entities_buffer := [] }

/-- The outward projection of one person record (app.py lines 182-189):
the nested `locations` dict rendered as the ordered list of its values. -/
structure PersonOut where
  name : String
  count : Nat
  locations : List LocationCount
deriving DecidableEq

/-- Embeds the projection of app.py lines 182-190: one output record per
`output_dict` entry, in insertion order, with `locations` as the list of
values of the nested dict in insertion order. -/
def project (d : List NamedEntityDict) : List PersonOut :=
  d.map fun r => { name := r.name, count := r.count, locations := r.locations }

/-- The whole engine on a stream from a fresh state, projected
(spec section 6: `associate(entity_stream)`); `none` embeds an uncaught
`KeyError`. -/
def associate (stream : List LabeledEntity) : Option (List PersonOut) :=
  (processStream stream emptyState).map fun s => project s.output_dict

/-- Count stored in `output_dict` under name `n` for location name `m`
(`0` when either is absent). -/
def locCount (d : List NamedEntityDict) (n m : String) : Nat :=
  match dict_lookup d n with
  | none => 0
  | some r => get_loc_count r.locations m

/-- Appearance count stored in `output_dict` under name `n`
(`0` when absent). -/
def countOf (d : List NamedEntityDict) (n : String) : Nat :=
  match dict_lookup d n with
  | none => 0
  | some r => r.count

/-- The PERSON entities of a stream, in order. -/
def personsOf (ss : List LabeledEntity) : List PositionalEntityDict :=
  ss.filterMap fun e =>
    match e.1 with
    | EntityLabel.PERSON => some e.2
    | EntityLabel.LOC => none

/-- The LOC entities of a stream, in order. -/
def locsOf (ss : List LabeledEntity) : List PositionalEntityDict :=
  ss.filterMap fun e =>
    match e.1 with
    | EntityLabel.PERSON => none
    | EntityLabel.LOC => some e.2

/-- Number of entities with a given name in a list. -/
def nameMult (n : String) (l : List PositionalEntityDict) : Nat :=
  (l.filter fun x => decide (x.name = n)).length

/-- The portion of the reversed people buffer actually updated by the
LOC-case scan: the maximal tail-first run of candidates within range of
the incoming location's start (the scan breaks at the first candidate
outside the range). -/
def scannedPeople (people : List PositionalEntityDict)
    (l : PositionalEntityDict) : List PositionalEntityDict :=
  people.reverse.takeWhile fun q => decide ((q.end_ - l.start).natAbs ≤ 100)

/-- The `locations` list stored under a name, `[]` when the name is absent. -/
def locationsOf (d : List NamedEntityDict) (n : String) : List LocationCount :=
  match dict_lookup d n with
  | none => []
  | some r => r.locations

/-! ### Lemmas about the nested locations dictionary -/

theorem loc_lookup_name {L : List LocationCount} {m : String} {r : LocationCount}
    (h : loc_lookup L m = some r) : r.name = m := by
  induction L with
  | nil => simp [loc_lookup] at h
  | cons x rest ih =>
      by_cases hx : x.name = m
      · simp [loc_lookup, hx] at h
        subst h
        exact hx
      · simp [loc_lookup, hx] at h
        exact ih h

theorem loc_lookup_mem {L : List LocationCount} {m : String} {r : LocationCount}
    (h : loc_lookup L m = some r) : r ∈ L := by
  induction L with
  | nil => simp [loc_lookup] at h
  | cons x rest ih =>
      by_cases hx : x.name = m
      · simp [loc_lookup, hx] at h
        subst h
        exact List.mem_cons_self x rest
      · simp [loc_lookup, hx] at h
        exact List.mem_cons_of_mem x (ih h)

theorem loc_lookup_map {L : List LocationCount} {m : String}
    {f : LocationCount → LocationCount} (hf : ∀ r, (f r).name = r.name) :
    loc_lookup (L.map f) m = (loc_lookup L m).map f := by
  induction L with
  | nil => simp [loc_lookup]
  | cons x rest ih =>
      by_cases hx : x.name = m
      · simp [loc_lookup, hf, hx]
      · simp [loc_lookup, hf, hx, ih]

theorem loc_lookup_append_single (L : List LocationCount) (x : LocationCount)
    (m : String) :
    loc_lookup (L ++ [x]) m =
      (loc_lookup L m).rec (motive := fun _ => Option LocationCount)
        (if x.name = m then some x else none) (fun r => some r) := by
  induction L with
  | nil => simp [loc_lookup]
  | cons y rest ih =>
      by_cases hy : y.name = m
      · simp [loc_lookup, hy]
      · simp [loc_lookup, hy, ih]

theorem get_loc_count_update (L : List LocationCount) (n m : String) :
    get_loc_count (update_locations L n) m
      = get_loc_count L m + (if m = n then 1 else 0) := by
  have hf : ∀ r : LocationCount,
      ((if r.name = n then { r with count := r.count + 1 } else r) : LocationCount).name
        = r.name := by
    intro r
    by_cases h : r.name = n <;> simp [h]
  unfold update_locations
  cases hl : loc_lookup L n with
  | none =>
      rw [get_loc_count, loc_lookup_append_single]
      by_cases hmn : m = n
      · subst hmn
        rw [get_loc_count, hl]
        simp [hl]
      · cases hm : loc_lookup L m with
        | none =>
            have : ¬ ((⟨n, 1⟩ : LocationCount).name = m) := by
              simp
              exact fun h => hmn h.symm
            simp [hm, this, get_loc_count, hmn]
        | some r => simp [hm, get_loc_count, hmn]
  | some r0 =>
      rw [get_loc_count, loc_lookup_map hf]
      by_cases hmn : m = n
      · subst hmn
        rw [hl]
        have hr0 : r0.name = m := loc_lookup_name hl
        simp [get_loc_count, hl, hr0]
      · cases hm : loc_lookup L m with
        | none => simp [hm, get_loc_count, hmn]
        | some r =>
            have hr : r.name = m := loc_lookup_name hm
            have : ¬ (r.name = n) := by
              rw [hr]
              exact fun h => hmn h
            simp [hm, get_loc_count, hmn, this]

theorem get_loc_count_pos_mem {L : List LocationCount} {m : String}
    (h : 1 ≤ get_loc_count L m) :
    ∃ lr ∈ L, lr.name = m ∧ 1 ≤ lr.count := by
  rw [get_loc_count] at h
  cases hm : loc_lookup L m with
  | none => rw [hm] at h; simp at h
  | some r =>
      rw [hm] at h
      exact ⟨r, loc_lookup_mem hm, loc_lookup_name hm, h⟩

/-! ### Lemmas about the outer aggregate dictionary -/

theorem dict_lookup_name {d : List NamedEntityDict} {n : String}
    {r : NamedEntityDict} (h : dict_lookup d n = some r) : r.name = n := by
  induction d with
  | nil => simp [dict_lookup] at h
  | cons x rest ih =>
      by_cases hx : x.name = n
      · simp [dict_lookup, hx] at h
        subst h
        exact hx
      · simp [dict_lookup, hx] at h
        exact ih h

theorem dict_lookup_mem {d : List NamedEntityDict} {n : String}
    {r : NamedEntityDict} (h : dict_lookup d n = some r) : r ∈ d := by
  induction d with
  | nil => simp [dict_lookup] at h
  | cons x rest ih =>
      by_cases hx : x.name = n
      · simp [dict_lookup, hx] at h
        subst h
        exact List.mem_cons_self x rest
      · simp [dict_lookup, hx] at h
        exact List.mem_cons_of_mem x (ih h)

theorem dict_lookup_update (d : List NamedEntityDict) (n n' : String)
    (f : NamedEntityDict → NamedEntityDict) (hf : ∀ r, (f r).name = r.name) :
    dict_lookup (dict_update d n f) n'
      = if n' = n then (dict_lookup d n).map f else dict_lookup d n' := by
  induction d with
  | nil => by_cases h : n' = n <;> simp [dict_lookup, dict_update, h]
  | cons x rest ih =>
      have ih' : dict_lookup (List.map (fun r => if r.name = n then f r else r) rest) n'
          = if n' = n then (dict_lookup rest n).map f else dict_lookup rest n' := ih
      by_cases hn : n' = n
      · subst hn
        by_cases hxn : x.name = n'
        · simp [dict_update, dict_lookup, hf, hxn, ih']
        · simp [dict_update, dict_lookup, hf, hxn, ih']
      · have hn2 : ¬ n = n' := fun h => hn h.symm
        by_cases hxn : x.name = n
        · have hxn' : ¬ x.name = n' := by
            rw [hxn]
            exact hn2
          simp [dict_update, dict_lookup, hf, hxn, hxn', hn, hn2, ih']
        · by_cases hxn' : x.name = n'
          · simp [dict_update, dict_lookup, hf, hxn, hxn', hn, hn2, ih']
          · simp [dict_update, dict_lookup, hf, hxn, hxn', hn, hn2, ih']

theorem dict_update_map_name (d : List NamedEntityDict) (n : String)
    (f : NamedEntityDict → NamedEntityDict) (hf : ∀ r, (f r).name = r.name) :
    (dict_update d n f).map (fun r => r.name) = d.map (fun r => r.name) := by
  unfold dict_update
  rw [List.map_map]
  apply List.map_congr_left
  intro r _
  by_cases h : r.name = n <;> simp [h, hf]

theorem mem_dict_update {d : List NamedEntityDict} {n : String}
    {f : NamedEntityDict → NamedEntityDict} {r' : NamedEntityDict}
    (h : r' ∈ dict_update d n f) :
    ∃ r ∈ d, r' = if r.name = n then f r else r := by
  unfold dict_update at h
  obtain ⟨r, hr, hr'⟩ := List.mem_map.mp h
  exact ⟨r, hr, hr'.symm⟩

theorem dict_lookup_append_some {d : List NamedEntityDict} {n : String}
    {r : NamedEntityDict} (h : dict_lookup d n = some r)
    (x : NamedEntityDict) : dict_lookup (d ++ [x]) n = some r := by
  induction d with
  | nil => simp [dict_lookup] at h
  | cons y rest ih =>
      by_cases hy : y.name = n
      · simp [dict_lookup, hy] at h ⊢
        exact h
      · simp [dict_lookup, hy] at h ⊢
        exact ih h

theorem dict_lookup_append_none {d : List NamedEntityDict} {n : String}
    (h : dict_lookup d n = none) (x : NamedEntityDict) :
    dict_lookup (d ++ [x]) n = if x.name = n then some x else none := by
  induction d with
  | nil => simp [dict_lookup]
  | cons y rest ih =>
      by_cases hy : y.name = n
      · simp [dict_lookup, hy] at h
      · simp [dict_lookup, hy] at h ⊢
        exact ih h

theorem dict_lookup_none_iff (d : List NamedEntityDict) (n : String) :
    dict_lookup d n = none ↔ n ∉ d.map (fun r => r.name) := by
  induction d with
  | nil => simp [dict_lookup]
  | cons x rest ih =>
      by_cases hx : x.name = n
      · simp [dict_lookup, hx]
      · simp only [dict_lookup, hx, if_false, List.map_cons, List.mem_cons, ih]
        constructor
        · intro h hc
          rcases hc with hc | hc
          · exact hx hc.symm
          · exact h hc
        · intro h
          exact fun hc => h (Or.inr hc)

/-! ### Multiplicity lemmas -/

theorem nameMult_nil (n : String) : nameMult n [] = 0 := rfl

theorem nameMult_cons (n : String) (x : PositionalEntityDict)
    (l : List PositionalEntityDict) :
    nameMult n (x :: l) = (if x.name = n then 1 else 0) + nameMult n l := by
  by_cases h : x.name = n <;> simp [nameMult, List.filter, h, Nat.add_comm]

theorem nameMult_append (n : String) (l₁ l₂ : List PositionalEntityDict) :
    nameMult n (l₁ ++ l₂) = nameMult n l₁ + nameMult n l₂ := by
  simp [nameMult, List.filter_append]

theorem nameMult_reverse (n : String) (l : List PositionalEntityDict) :
    nameMult n l.reverse = nameMult n l := by
  induction l with
  | nil => rfl
  | cons x rest ih =>
      rw [List.reverse_cons, nameMult_append, nameMult_cons, ih, nameMult_cons,
        nameMult_nil]
      omega

theorem nameMult_pos_of_mem {n : String} {x : PositionalEntityDict}
    {l : List PositionalEntityDict} (hx : x ∈ l) (hn : x.name = n) :
    1 ≤ nameMult n l := by
  induction l with
  | nil => simp at hx
  | cons y rest ih =>
      rw [nameMult_cons]
      rcases List.mem_cons.mp hx with h | h
      · subst h
        simp [hn]
      · have := ih h
        omega

/-! ### The PERSON-case scan loop -/

theorem person_scan_get_loc_count (buf : List PositionalEntityDict) (p_start : Int)
    (m : String) :
    ∀ (rev : List PositionalEntityDict) (L : List LocationCount) (i : Nat),
      get_loc_count (person_scan buf L rev p_start i) m
        = get_loc_count L m + nameMult m rev := by
  intro rev
  induction rev with
  | nil => intro L i; simp [person_scan, nameMult_nil]
  | cons loc rest ih =>
      intro L i
      rw [person_scan, ih, get_loc_count_update, nameMult_cons]
      by_cases h : loc.name = m
      · simp [h]
        omega
      · have h2 : ¬ m = loc.name := fun hc => h hc.symm
        simp [h, h2]

/-! ### The PERSON-case handler -/

theorem hpeu_people (p : PositionalEntityDict) (s : EngineState) :
    (handle_person_entity_update p s).people_entities_buffer
      = s.people_entities_buffer ++ [p] := rfl

theorem hpeu_locs (p : PositionalEntityDict) (s : EngineState) :
    (handle_person_entity_update p s).loc_entities_buffer
      = s.loc_entities_buffer := rfl

theorem bump_count_name (r : NamedEntityDict) : (bump_count r).name = r.name := rfl

theorem scan_locations_name (buf : List PositionalEntityDict) (p_start : Int)
    (r : NamedEntityDict) : (scan_locations buf p_start r).name = r.name := rfl

theorem hpeu_lookup_ne (p : PositionalEntityDict) (s : EngineState)
    {n : String} (hn : n ≠ p.name) :
    dict_lookup (handle_person_entity_update p s).output_dict n
      = dict_lookup s.output_dict n := by
  show dict_lookup (dict_update (dict_update _ _ _) _ _) n = _
  rw [dict_lookup_update _ _ _ _ (scan_locations_name _ _), if_neg hn,
    dict_lookup_update _ _ _ _ bump_count_name, if_neg hn]
  cases hpres : dict_lookup s.output_dict p.name with
  | some r => simp [hpres]
  | none =>
      simp only [hpres, Option.isSome_none, Bool.false_eq_true, if_false]
      cases hsn : dict_lookup s.output_dict n with
      | none =>
          rw [dict_lookup_append_none hsn]
          simp
          exact fun h => hn h.symm
      | some r => rw [dict_lookup_append_some hsn]

theorem hpeu_lookup_self (p : PositionalEntityDict) (s : EngineState) :
    dict_lookup (handle_person_entity_update p s).output_dict p.name
      = some { name := p.name,
               count := countOf s.output_dict p.name + 1,
               locations :=
                 person_scan s.loc_entities_buffer (locationsOf s.output_dict p.name)
                   s.loc_entities_buffer.reverse p.start 0 } := by
  show dict_lookup (dict_update (dict_update _ _ _) _ _) p.name = _
  rw [dict_lookup_update _ _ _ _ (scan_locations_name _ _),
    dict_lookup_update _ _ _ _ bump_count_name]
  simp only [if_pos rfl]
  cases hpres : dict_lookup s.output_dict p.name with
  | none =>
      simp only [hpres, Option.isSome_none, Bool.false_eq_true, if_false]
      rw [dict_lookup_append_none hpres]
      simp [countOf, locationsOf, hpres, scan_locations, bump_count]
  | some r =>
      have hname : r.name = p.name := dict_lookup_name hpres
      simp only [hpres, Option.isSome_some, if_true]
      simp [countOf, locationsOf, hpres, hname, scan_locations, bump_count]

theorem hpeu_countOf_self (p : PositionalEntityDict) (s : EngineState) :
    countOf (handle_person_entity_update p s).output_dict p.name
      = countOf s.output_dict p.name + 1 := by
  rw [countOf, hpeu_lookup_self]

theorem hpeu_countOf (p : PositionalEntityDict) (s : EngineState) (n : String) :
    countOf (handle_person_entity_update p s).output_dict n
      = countOf s.output_dict n + (if p.name = n then 1 else 0) := by
  by_cases h : n = p.name
  · subst h
    rw [hpeu_countOf_self]
    simp
  · rw [countOf, hpeu_lookup_ne p s h, ← countOf]
    have : ¬ (p.name = n) := fun hc => h hc.symm
    simp [this]

theorem hpeu_locCount_self (p : PositionalEntityDict) (s : EngineState)
    (m : String) :
    locCount (handle_person_entity_update p s).output_dict p.name m
      = locCount s.output_dict p.name m + nameMult m s.loc_entities_buffer := by
  rw [locCount, hpeu_lookup_self]
  simp only
  rw [person_scan_get_loc_count, nameMult_reverse]
  rw [locCount, locationsOf]
  cases hpres : dict_lookup s.output_dict p.name with
  | none => simp [get_loc_count, loc_lookup]
  | some r => rfl

theorem hpeu_locCount_ne (p : PositionalEntityDict) (s : EngineState)
    {n : String} (hn : n ≠ p.name) (m : String) :
    locCount (handle_person_entity_update p s).output_dict n m
      = locCount s.output_dict n m := by
  rw [locCount, hpeu_lookup_ne p s hn, ← locCount]

theorem hpeu_isSome_self (p : PositionalEntityDict) (s : EngineState) :
    (dict_lookup (handle_person_entity_update p s).output_dict p.name).isSome := by
  rw [hpeu_lookup_self]
  rfl

theorem hpeu_isSome_mono (p : PositionalEntityDict) (s : EngineState)
    {n : String} (h : (dict_lookup s.output_dict n).isSome) :
    (dict_lookup (handle_person_entity_update p s).output_dict n).isSome := by
  by_cases hn : n = p.name
  · subst hn
    exact hpeu_isSome_self p s
  · rw [hpeu_lookup_ne p s hn]
    exact h

/-! ### The LOC-case scan loop -/

theorem add_loc_name (ln : String) (r : NamedEntityDict) :
    (add_loc ln r).name = r.name := rfl

theorem add_loc_count (ln : String) (r : NamedEntityDict) :
    (add_loc ln r).count = r.count := rfl

theorem hpeb_snd (buf : List PositionalEntityDict) (end_ start : Int)
    (i max_range : Nat) :
    (handle_positional_entity_buffer buf end_ start i max_range).2
      = decide (max_range < (end_ - start).natAbs) := rfl

theorem loc_scan_isSome (l : PositionalEntityDict)
    (buf : List PositionalEntityDict) :
    ∀ (rev : List PositionalEntityDict) (d : List NamedEntityDict) (i : Nat),
      (∀ q ∈ rev, (dict_lookup d q.name).isSome) →
      (loc_scan d buf rev l i).isSome := by
  intro rev
  induction rev with
  | nil => intro d i _; simp [loc_scan]
  | cons person rest ih =>
      intro d i h
      rw [loc_scan, hpeb_snd]
      by_cases hout : (100 < (person.end_ - l.start).natAbs)
      · simp [hout]
      · simp only [hout, decide_eq_true_eq, if_false]
        have hp : (dict_lookup d person.name).isSome :=
          h person (List.mem_cons_self person rest)
        cases hpn : dict_lookup d person.name with
        | none => rw [hpn] at hp; simp at hp
        | some r =>
            apply ih
            intro q hq
            rw [dict_lookup_update _ _ _ _ (add_loc_name l.name)]
            by_cases hqn : q.name = person.name
            · rw [if_pos hqn, hpn]
              rfl
            · rw [if_neg hqn]
              exact h q (List.mem_cons_of_mem person hq)

theorem loc_scan_spec (l : PositionalEntityDict)
    (buf : List PositionalEntityDict) :
    ∀ (rev : List PositionalEntityDict) (d : List NamedEntityDict) (i : Nat)
      (d' : List NamedEntityDict), loc_scan d buf rev l i = some d' →
      (∀ n m, locCount d' n m
          = locCount d n m +
            (if m = l.name
              then nameMult n
                (rev.takeWhile fun q => decide ((q.end_ - l.start).natAbs ≤ 100))
              else 0)) ∧
      (∀ n, (dict_lookup d' n).map (fun r => r.count)
          = (dict_lookup d n).map (fun r => r.count)) ∧
      d'.map (fun r => r.name) = d.map (fun r => r.name) ∧
      (∀ r' ∈ d', ∃ r ∈ d, r'.name = r.name ∧ r'.count = r.count) := by
  intro rev
  induction rev with
  | nil =>
      intro d i d' h
      simp only [loc_scan, Option.some_inj] at h
      subst h
      refine ⟨fun n m => by simp [List.takeWhile, nameMult_nil], fun n => rfl, rfl, ?_⟩
      intro r' hr'
      exact ⟨r', hr', rfl, rfl⟩
  | cons person rest ih =>
      intro d i d' h
      rw [loc_scan, hpeb_snd] at h
      by_cases hout : (100 < (person.end_ - l.start).natAbs)
      · simp only [hout, decide_eq_true_eq, if_true, Option.some_inj] at h
        subst h
        have htw : (person :: rest).takeWhile
            (fun q => decide ((q.end_ - l.start).natAbs ≤ 100)) = [] := by
          have : ¬ ((person.end_ - l.start).natAbs ≤ 100) := by omega
          simp [List.takeWhile_cons, this]
        rw [htw]
        refine ⟨fun n m => by simp [nameMult_nil], fun n => rfl, rfl, ?_⟩
        intro r' hr'
        exact ⟨r', hr', rfl, rfl⟩
      · simp only [hout, decide_eq_true_eq, if_false] at h
        cases hpn : dict_lookup d person.name with
        | none => rw [hpn] at h; simp at h
        | some r =>
            rw [hpn] at h
            obtain ⟨ih1, ih2, ih3, ih4⟩ := ih (dict_update d person.name (add_loc l.name)) (i + 1) d' h
            have htw : (person :: rest).takeWhile
                (fun q => decide ((q.end_ - l.start).natAbs ≤ 100))
              = person :: rest.takeWhile
                  (fun q => decide ((q.end_ - l.start).natAbs ≤ 100)) := by
              have : (person.end_ - l.start).natAbs ≤ 100 := by omega
              simp [List.takeWhile_cons, this]
            refine ⟨?_, ?_, ?_, ?_⟩
            · intro n m
              rw [ih1 n m, htw, nameMult_cons]
              have hupd : locCount (dict_update d person.name (add_loc l.name)) n m
                  = locCount d n m
                    + (if n = person.name then (if m = l.name then 1 else 0) else 0) := by
                by_cases hnp : n = person.name
                · rw [hnp]
                  unfold locCount
                  rw [dict_lookup_update _ _ _ _ (add_loc_name l.name), if_pos rfl, hpn]
                  show get_loc_count (update_locations r.locations l.name) m
                      = get_loc_count r.locations m
                        + (if person.name = person.name
                            then (if m = l.name then 1 else 0) else 0)
                  rw [if_pos rfl, get_loc_count_update]
                · unfold locCount
                  rw [dict_lookup_update _ _ _ _ (add_loc_name l.name), if_neg hnp,
                    if_neg hnp]
                  exact (Nat.add_zero _).symm
              rw [hupd]
              by_cases hml : m = l.name
              · subst hml
                by_cases hnp : n = person.name
                · subst hnp
                  simp
                  omega
                · have : ¬ (person.name = n) := fun hc => hnp hc.symm
                  simp [hnp, this]
              · simp [hml]
            · intro n
              rw [ih2 n, dict_lookup_update _ _ _ _ (add_loc_name l.name)]
              by_cases hnp : n = person.name
              · rw [if_pos hnp, hnp, hpn]
                rfl
              · rw [if_neg hnp]
            · rw [ih3, dict_update_map_name _ _ _ (add_loc_name l.name)]
            · intro r' hr'
              obtain ⟨r1, hr1, hname1, hcount1⟩ := ih4 r' hr'
              obtain ⟨r0, hr0, hr0eq⟩ := mem_dict_update hr1
              refine ⟨r0, hr0, ?_, ?_⟩
              · rw [hname1, hr0eq]
                by_cases hx : r0.name = person.name <;> simp [hx, add_loc_name]
              · rw [hcount1, hr0eq]
                by_cases hx : r0.name = person.name <;> simp [hx, add_loc_count]

/-! ### The LOC-case handler -/

theorem hleu_inv {l : PositionalEntityDict} {s s' : EngineState}
    (h : handle_loc_entity_update l s = some s') :
    loc_scan s.output_dict s.people_entities_buffer
        s.people_entities_buffer.reverse l 0 = some s'.output_dict ∧
      s'.people_entities_buffer = s.people_entities_buffer ∧
      s'.loc_entities_buffer = s.loc_entities_buffer ++ [l] := by
  unfold handle_loc_entity_update at h
  cases hs : loc_scan s.output_dict s.people_entities_buffer
      s.people_entities_buffer.reverse l 0 with
  | none => rw [hs] at h; simp at h
  | some d' =>
      rw [hs] at h
      simp only [Option.some_inj] at h
      subst h
      exact ⟨rfl, rfl, rfl⟩

theorem hleu_locCount {l : PositionalEntityDict} {s s' : EngineState}
    (h : handle_loc_entity_update l s = some s') (n m : String) :
    locCount s'.output_dict n m
      = locCount s.output_dict n m +
        (if m = l.name then nameMult n (scannedPeople s.people_entities_buffer l)
          else 0) := by
  obtain ⟨hs, -, -⟩ := hleu_inv h
  obtain ⟨h1, -, -, -⟩ := loc_scan_spec l s.people_entities_buffer
    s.people_entities_buffer.reverse s.output_dict 0 s'.output_dict hs
  exact h1 n m

theorem hleu_lookup_count {l : PositionalEntityDict} {s s' : EngineState}
    (h : handle_loc_entity_update l s = some s') (n : String) :
    (dict_lookup s'.output_dict n).map (fun r => r.count)
      = (dict_lookup s.output_dict n).map (fun r => r.count) := by
  obtain ⟨hs, -, -⟩ := hleu_inv h
  obtain ⟨-, h2, -, -⟩ := loc_scan_spec l s.people_entities_buffer
    s.people_entities_buffer.reverse s.output_dict 0 s'.output_dict hs
  exact h2 n

theorem hleu_map_name {l : PositionalEntityDict} {s s' : EngineState}
    (h : handle_loc_entity_update l s = some s') :
    s'.output_dict.map (fun r => r.name) = s.output_dict.map (fun r => r.name) := by
  obtain ⟨hs, -, -⟩ := hleu_inv h
  obtain ⟨-, -, h3, -⟩ := loc_scan_spec l s.people_entities_buffer
    s.people_entities_buffer.reverse s.output_dict 0 s'.output_dict hs
  exact h3

theorem hleu_mem_counts {l : PositionalEntityDict} {s s' : EngineState}
    (h : handle_loc_entity_update l s = some s') :
    ∀ r' ∈ s'.output_dict, ∃ r ∈ s.output_dict,
      r'.name = r.name ∧ r'.count = r.count := by
  obtain ⟨hs, -, -⟩ := hleu_inv h
  obtain ⟨-, -, -, h4⟩ := loc_scan_spec l s.people_entities_buffer
    s.people_entities_buffer.reverse s.output_dict 0 s'.output_dict hs
  exact h4

theorem hleu_isSome {l : PositionalEntityDict} {s s' : EngineState}
    (h : handle_loc_entity_update l s = some s') (n : String) :
    (dict_lookup s'.output_dict n).isSome = (dict_lookup s.output_dict n).isSome := by
  have := hleu_lookup_count h n
  have h1 : ((dict_lookup s'.output_dict n).map (fun r => r.count)).isSome
      = ((dict_lookup s.output_dict n).map (fun r => r.count)).isSome := by
    rw [this]
  simpa using h1

/-- The reachability invariant behind the unguarded lookup of app.py line
345: every buffered person name is a key of `output_dict`. -/
def WF (s : EngineState) : Prop :=
  ∀ q ∈ s.people_entities_buffer, (dict_lookup s.output_dict q.name).isSome

theorem hleu_some_of_WF (l : PositionalEntityDict) (s : EngineState)
    (h : WF s) : ∃ s', handle_loc_entity_update l s = some s' := by
  have hscan : (loc_scan s.output_dict s.people_entities_buffer
      s.people_entities_buffer.reverse l 0).isSome := by
    apply loc_scan_isSome
    intro q hq
    exact h q (List.mem_reverse.mp hq)
  unfold handle_loc_entity_update
  cases hs : loc_scan s.output_dict s.people_entities_buffer
      s.people_entities_buffer.reverse l 0 with
  | none => rw [hs] at hscan; simp at hscan
  | some d' => exact ⟨_, rfl⟩

/-! ### Single-step and whole-stream lemmas -/

theorem personsOf_append (l₁ l₂ : List LabeledEntity) :
    personsOf (l₁ ++ l₂) = personsOf l₁ ++ personsOf l₂ := by
  simp [personsOf, List.filterMap_append]

theorem locsOf_append (l₁ l₂ : List LabeledEntity) :
    locsOf (l₁ ++ l₂) = locsOf l₁ ++ locsOf l₂ := by
  simp [locsOf, List.filterMap_append]

theorem step_spec (lbl : EntityLabel) (e : PositionalEntityDict)
    (s : EngineState) (hWF : WF s) :
    ∃ s', handle_positional_entity_update lbl e s = some s' ∧ WF s' ∧
      s'.people_entities_buffer = s.people_entities_buffer ++ personsOf [(lbl, e)] ∧
      s'.loc_entities_buffer = s.loc_entities_buffer ++ locsOf [(lbl, e)] ∧
      (∀ n m, locCount s.output_dict n m ≤ locCount s'.output_dict n m) ∧
      (∀ n, (dict_lookup s.output_dict n).isSome →
        (dict_lookup s'.output_dict n).isSome) := by
  cases lbl with
  | PERSON =>
      refine ⟨handle_person_entity_update e s, rfl, ?_, ?_, ?_, ?_, ?_⟩
      · intro q hq
        rw [hpeu_people] at hq
        rcases List.mem_append.mp hq with hq | hq
        · exact hpeu_isSome_mono e s (hWF q hq)
        · have : q = e := by simpa using hq
          subst this
          exact hpeu_isSome_self q s
      · rw [hpeu_people]
        rfl
      · rw [hpeu_locs]
        simp [locsOf]
      · intro n m
        by_cases hn : n = e.name
        · subst hn
          rw [hpeu_locCount_self]
          omega
        · rw [hpeu_locCount_ne e s hn]
      · intro n
        exact hpeu_isSome_mono e s
  | LOC =>
      obtain ⟨s', hs'⟩ := hleu_some_of_WF e s hWF
      obtain ⟨-, hpeople, hlocs⟩ := hleu_inv hs'
      refine ⟨s', hs', ?_, ?_, ?_, ?_, ?_⟩
      · intro q hq
        rw [hpeople] at hq
        rw [hleu_isSome hs']
        exact hWF q hq
      · rw [hpeople]
        simp [personsOf]
      · rw [hlocs]
        rfl
      · intro n m
        rw [hleu_locCount hs' n m]
        omega
      · intro n h
        rw [hleu_isSome hs']
        exact h

theorem run_spec (ss : List LabeledEntity) :
    ∀ s : EngineState, WF s →
    ∃ s', processStream ss s = some s' ∧ WF s' ∧
      s'.people_entities_buffer = s.people_entities_buffer ++ personsOf ss ∧
      s'.loc_entities_buffer = s.loc_entities_buffer ++ locsOf ss ∧
      (∀ n m, locCount s.output_dict n m ≤ locCount s'.output_dict n m) ∧
      (∀ n, (dict_lookup s.output_dict n).isSome →
        (dict_lookup s'.output_dict n).isSome) := by
  induction ss with
  | nil =>
      intro s hWF
      exact ⟨s, rfl, hWF, by simp [personsOf], by simp [locsOf], fun n m => le_refl _,
        fun n h => h⟩
  | cons e rest ih =>
      intro s hWF
      obtain ⟨s₁, hstep, hWF₁, hp₁, hl₁, hmono₁, hsome₁⟩ := step_spec e.1 e.2 s hWF
      obtain ⟨s', hrun, hWF', hp', hl', hmono', hsome'⟩ := ih s₁ hWF₁
      refine ⟨s', ?_, hWF', ?_, ?_, ?_, ?_⟩
      · show processStream (e :: rest) s = some s'
        rw [processStream]
        cases e with
        | mk lbl ent => rw [hstep]; exact hrun
      · rw [hp', hp₁]
        have : (e :: rest) = [e] ++ rest := rfl
        rw [this, personsOf_append, List.append_assoc]
      · rw [hl', hl₁]
        have : (e :: rest) = [e] ++ rest := rfl
        rw [this, locsOf_append, List.append_assoc]
      · intro n m
        exact le_trans (hmono₁ n m) (hmono' n m)
      · intro n h
        exact hsome' n (hsome₁ n h)

theorem emptyState_WF : WF emptyState := by
  intro q hq
  simp [emptyState] at hq

/-! ### Count bookkeeping across steps and runs -/

theorem countOf_eq_getD (d : List NamedEntityDict) (n : String) :
    countOf d n = ((dict_lookup d n).map (fun r => r.count)).getD 0 := by
  unfold countOf
  cases dict_lookup d n <;> rfl

theorem hleu_countOf {l : PositionalEntityDict} {s s' : EngineState}
    (h : handle_loc_entity_update l s = some s') (n : String) :
    countOf s'.output_dict n = countOf s.output_dict n := by
  rw [countOf_eq_getD, countOf_eq_getD, hleu_lookup_count h n]

theorem step_countOf {lbl : EntityLabel} {e : PositionalEntityDict}
    {s s' : EngineState}
    (h : handle_positional_entity_update lbl e s = some s') (n : String) :
    countOf s'.output_dict n
      = countOf s.output_dict n
        + (if lbl = EntityLabel.PERSON ∧ e.name = n then 1 else 0) := by
  cases lbl with
  | PERSON =>
      simp only [handle_positional_entity_update, Option.some_inj] at h
      subst h
      rw [hpeu_countOf]
      by_cases hn : e.name = n <;> simp [hn]
  | LOC =>
      simp only [handle_positional_entity_update] at h
      rw [hleu_countOf h]
      simp

theorem run_countOf (ss : List LabeledEntity) :
    ∀ (s s' : EngineState), processStream ss s = some s' → ∀ n : String,
      countOf s'.output_dict n
        = countOf s.output_dict n + nameMult n (personsOf ss) := by
  induction ss with
  | nil =>
      intro s s' h n
      simp only [processStream, Option.some_inj] at h
      subst h
      simp [personsOf, nameMult_nil]
  | cons e rest ih =>
      intro s s' h n
      rw [processStream] at h
      cases hstep : handle_positional_entity_update e.1 e.2 s with
      | none => rw [hstep] at h; simp at h
      | some s₁ =>
          rw [hstep] at h
          rw [ih s₁ s' h n, step_countOf hstep n]
          obtain ⟨lbl, ent⟩ := e
          cases lbl with
          | PERSON =>
              have hper : personsOf ((EntityLabel.PERSON, ent) :: rest)
                  = ent :: personsOf rest := rfl
              rw [hper, nameMult_cons]
              by_cases hn : ent.name = n
              · simp [hn]
                omega
              · simp [hn]
          | LOC =>
              have hper : personsOf ((EntityLabel.LOC, ent) :: rest)
                  = personsOf rest := rfl
              rw [hper]
              simp

/-! ### Key uniqueness of the aggregate dictionary -/

theorem hpeu_map_name_cases (p : PositionalEntityDict) (s : EngineState) :
    (handle_person_entity_update p s).output_dict.map (fun r => r.name)
      = if (dict_lookup s.output_dict p.name).isSome
          then s.output_dict.map (fun r => r.name)
          else s.output_dict.map (fun r => r.name) ++ [p.name] := by
  show (dict_update (dict_update _ _ _) _ _).map (fun r => r.name) = _
  rw [dict_update_map_name _ _ _ (scan_locations_name _ _),
    dict_update_map_name _ _ _ bump_count_name]
  by_cases hp : (dict_lookup s.output_dict p.name).isSome
  · simp [hp]
  · simp [hp]

theorem step_nodup {lbl : EntityLabel} {e : PositionalEntityDict}
    {s s' : EngineState}
    (h : handle_positional_entity_update lbl e s = some s')
    (hnd : (s.output_dict.map fun r => r.name).Nodup) :
    (s'.output_dict.map fun r => r.name).Nodup := by
  cases lbl with
  | PERSON =>
      simp only [handle_positional_entity_update, Option.some_inj] at h
      subst h
      rw [hpeu_map_name_cases]
      by_cases hp : (dict_lookup s.output_dict e.name).isSome
      · simp [hp, hnd]
      · have hnone : dict_lookup s.output_dict e.name = none := by
          cases hq : dict_lookup s.output_dict e.name
          · rfl
          · rw [hq] at hp; simp at hp
        have hnotmem : e.name ∉ s.output_dict.map (fun r => r.name) :=
          (dict_lookup_none_iff _ _).mp hnone
        simp [hp, List.nodup_append, hnd, hnotmem]
  | LOC =>
      simp only [handle_positional_entity_update] at h
      rw [hleu_map_name h]
      exact hnd

theorem run_nodup (ss : List LabeledEntity) :
    ∀ (s s' : EngineState), processStream ss s = some s' →
      (s.output_dict.map fun r => r.name).Nodup →
      (s'.output_dict.map fun r => r.name).Nodup := by
  induction ss with
  | nil =>
      intro s s' h hnd
      simp only [processStream, Option.some_inj] at h
      subst h
      exact hnd
  | cons e rest ih =>
      intro s s' h hnd
      rw [processStream] at h
      cases hstep : handle_positional_entity_update e.1 e.2 s with
      | none => rw [hstep] at h; simp at h
      | some s₁ =>
          rw [hstep] at h
          exact ih s₁ s' h (step_nodup hstep hnd)

theorem dict_lookup_of_mem_nodup {d : List NamedEntityDict} {r : NamedEntityDict}
    (hnd : (d.map fun x => x.name).Nodup) (hr : r ∈ d) :
    dict_lookup d r.name = some r := by
  induction d with
  | nil => simp at hr
  | cons x rest ih =>
      rw [List.map_cons, List.nodup_cons] at hnd
      rcases List.mem_cons.mp hr with hr | hr
      · subst hr
        simp [dict_lookup]
      · have hx : ¬ (x.name = r.name) := by
          intro hc
          exact hnd.1 (hc ▸ List.mem_map.mpr ⟨r, hr, rfl⟩)
        simp only [dict_lookup, hx, if_false]
        exact ih hnd.2 hr

/-! ### Positivity of all stored counts -/

theorem scan_locations_count (buf : List PositionalEntityDict) (p_start : Int)
    (r : NamedEntityDict) : (scan_locations buf p_start r).count = r.count := rfl

theorem bump_count_count (r : NamedEntityDict) :
    (bump_count r).count = r.count + 1 := rfl

theorem hpeu_counts_pos {p : PositionalEntityDict} {s : EngineState}
    (h : ∀ r ∈ s.output_dict, 1 ≤ r.count) :
    ∀ r' ∈ (handle_person_entity_update p s).output_dict, 1 ≤ r'.count := by
  intro r' hr'
  obtain ⟨r1, hr1, hr1eq⟩ := mem_dict_update hr'
  obtain ⟨r0, hr0, hr0eq⟩ := mem_dict_update hr1
  have hcount1 : r'.count = r1.count := by
    rw [hr1eq]
    by_cases hx : r1.name = p.name <;> simp [hx, scan_locations_count]
  have hcount0 : r1.count = r0.count + (if r0.name = p.name then 1 else 0) := by
    rw [hr0eq]
    by_cases hx : r0.name = p.name <;> simp [hx, bump_count_count]
  have hbase : 1 ≤ r0.count + (if r0.name = p.name then 1 else 0) := by
    by_cases hp : (dict_lookup s.output_dict p.name).isSome
    · have hr0' : r0 ∈ s.output_dict := by
        simpa [hp] using hr0
      have := h r0 hr0'
      omega
    · have hr0' : r0 ∈ s.output_dict
          ++ [{ name := p.name, count := 0, locations := [] }] := by
        simpa [hp] using hr0
      rcases List.mem_append.mp hr0' with hm | hm
      · have := h r0 hm
        omega
      · have : r0 = { name := p.name, count := 0, locations := [] } := by
          simpa using hm
        subst this
        simp
  omega

theorem step_counts_pos {lbl : EntityLabel} {e : PositionalEntityDict}
    {s s' : EngineState}
    (h : handle_positional_entity_update lbl e s = some s')
    (hc : ∀ r ∈ s.output_dict, 1 ≤ r.count) :
    ∀ r' ∈ s'.output_dict, 1 ≤ r'.count := by
  cases lbl with
  | PERSON =>
      simp only [handle_positional_entity_update, Option.some_inj] at h
      subst h
      exact hpeu_counts_pos hc
  | LOC =>
      simp only [handle_positional_entity_update] at h
      intro r' hr'
      obtain ⟨r, hr, -, hcount⟩ := hleu_mem_counts h r' hr'
      rw [hcount]
      exact hc r hr

theorem run_counts_pos (ss : List LabeledEntity) :
    ∀ (s s' : EngineState), processStream ss s = some s' →
      (∀ r ∈ s.output_dict, 1 ≤ r.count) →
      ∀ r' ∈ s'.output_dict, 1 ≤ r'.count := by
  induction ss with
  | nil =>
      intro s s' h hc
      simp only [processStream, Option.some_inj] at h
      subst h
      exact hc
  | cons e rest ih =>
      intro s s' h hc
      rw [processStream] at h
      cases hstep : handle_positional_entity_update e.1 e.2 s with
      | none => rw [hstep] at h; simp at h
      | some s₁ =>
          rw [hstep] at h
          exact ih s₁ s' h (step_counts_pos hstep hc)

/-! ### Streams without PERSON entities -/

theorem run_no_persons (ss : List LabeledEntity) :
    ∀ (s s' : EngineState), personsOf ss = [] →
      s.people_entities_buffer = [] → processStream ss s = some s' →
      s'.output_dict = s.output_dict ∧ s'.people_entities_buffer = [] := by
  induction ss with
  | nil =>
      intro s s' _ hpb h
      simp only [processStream, Option.some_inj] at h
      subst h
      exact ⟨rfl, hpb⟩
  | cons e rest ih =>
      intro s s' hper hpb h
      obtain ⟨lbl, ent⟩ := e
      cases lbl with
      | PERSON => simp [personsOf] at hper
      | LOC =>
          rw [processStream] at h
          have hstep : handle_positional_entity_update EntityLabel.LOC ent s
              = some { output_dict := s.output_dict,
                       people_entities_buffer := s.people_entities_buffer,
                       loc_entities_buffer := s.loc_entities_buffer ++ [ent] } := by
            simp [handle_positional_entity_update, handle_loc_entity_update, hpb,
              loc_scan]
          rw [hstep] at h
          have hper' : personsOf rest = [] := by
            simpa [personsOf] using hper
          have hres := ih (EngineState.mk s.output_dict s.people_entities_buffer (s.loc_entities_buffer ++ [ent])) s' hper' hpb h
          exact ⟨hres.1, hres.2⟩

/-! ### Splitting a stream -/

theorem processStream_append (l₁ l₂ : List LabeledEntity) :
    ∀ s : EngineState, processStream (l₁ ++ l₂) s
      = (processStream l₁ s).bind fun s₁ => processStream l₂ s₁ := by
  induction l₁ with
  | nil => intro s; rfl
  | cons e rest ih =>
      intro s
      show processStream (e :: (rest ++ l₂)) s = _
      rw [processStream]
      cases hstep : handle_positional_entity_update e.1 e.2 s with
      | none => simp [processStream, hstep]
      | some s₁ => simp [processStream, hstep, ih s₁]

/-! ## Claim C1 -/

/-- A stream on which the PERSON-case scan encounters an out-of-range
candidate: Paris is 499 word positions from Alice and 501 from Bob. -/
def streamC1 : List LabeledEntity :=
  [(EntityLabel.LOC, ⟨"Paris", 0, 1⟩), (EntityLabel.PERSON, ⟨"Alice", 500, 501⟩),
   (EntityLabel.PERSON, ⟨"Bob", 502, 503⟩)]

/-- Claim C1 (code_bug): the claim states that an out-of-range candidate and
the head side of the buffer are evicted and never scanned again.  On the
code this is false: the slice on app.py line 379 is computed but never
assigned, so eviction is a no-op.  Evaluating at the failing input: after
Alice's scan meets Paris at distance 499 > 100, Paris is still in
`loc_entities_buffer`, and Bob's later scan revisits Paris and even counts
it (count 1 under Bob). -/
theorem C1_eviction_is_a_noop :
    ((processStream (streamC1.take 2) emptyState).map
        fun s => s.loc_entities_buffer) = some [⟨"Paris", 0, 1⟩]
      ∧ ((processStream streamC1 emptyState).map
          fun s => s.loc_entities_buffer) = some [⟨"Paris", 0, 1⟩]
      ∧ ((processStream streamC1 emptyState).map
          fun s => locCount s.output_dict "Bob" "Paris") = some 1 :=
  ⟨rfl, rfl, rfl⟩

/-! ## Claim C2 -/

/-- Claim C2 (confirmed): processing a PERSON entity appends it to
`people_entities_buffer`, leaves `loc_entities_buffer` unchanged, and the
scan over the reversed location buffer increments the count of every
buffered location name under the person's name — once per buffered
occurrence, with no range condition; in particular every buffered
candidate strictly beyond distance 100 is still counted. -/
theorem C2_person_update_unconditional (s : EngineState) (p : PositionalEntityDict) :
    (handle_person_entity_update p s).people_entities_buffer
        = s.people_entities_buffer ++ [p]
      ∧ (handle_person_entity_update p s).loc_entities_buffer
        = s.loc_entities_buffer
      ∧ (∀ m : String,
          locCount (handle_person_entity_update p s).output_dict p.name m
            = locCount s.output_dict p.name m + nameMult m s.loc_entities_buffer)
      ∧ ∀ loc ∈ s.loc_entities_buffer, 100 < (loc.end_ - p.start).natAbs →
          locCount s.output_dict p.name loc.name
            < locCount (handle_person_entity_update p s).output_dict p.name loc.name := by
  refine ⟨hpeu_people p s, hpeu_locs p s, hpeu_locCount_self p s, ?_⟩
  intro loc hloc _
  rw [hpeu_locCount_self p s loc.name]
  have := nameMult_pos_of_mem hloc rfl
  omega

/-- State and entity exercising C2: one buffered location 499 positions
away from the incoming person. -/
def stateW2 : EngineState :=
  { output_dict := [], people_entities_buffer := [],
    loc_entities_buffer := [⟨"Paris", 0, 1⟩] }

/-- Witness for C2 at a concrete input: the buffered out-of-range Paris is
still counted under Alice. -/
theorem C2_person_update_unconditional_witness :
    locCount (handle_person_entity_update ⟨"Alice", 500, 501⟩ stateW2).output_dict
        "Alice" "Paris"
      = locCount stateW2.output_dict "Alice" "Paris"
        + nameMult "Paris" stateW2.loc_entities_buffer :=
  (C2_person_update_unconditional stateW2 ⟨"Alice", 500, 501⟩).2.2.1 "Paris"

/-! ## Claim C3 -/

/-- Claim C3 (confirmed): processing a LOC entity appends it to
`loc_entities_buffer`, leaves `people_entities_buffer` unchanged, and
scans the people buffer from most recent to least recent; exactly the
maximal in-range tail (`scannedPeople`, cut off at the first candidate
with distance strictly above 100) receives increments of the incoming
location's name, so no older buffered person is updated in that call.
The hypothesis is the reachability invariant that buffered person names
are keys of the aggregate map (proved to hold in C9). -/
theorem C3_loc_scan_and_stop (s : EngineState) (l : PositionalEntityDict)
    (h : ∀ q ∈ s.people_entities_buffer, (dict_lookup s.output_dict q.name).isSome) :
    ∃ s', handle_loc_entity_update l s = some s'
      ∧ s'.loc_entities_buffer = s.loc_entities_buffer ++ [l]
      ∧ s'.people_entities_buffer = s.people_entities_buffer
      ∧ ∀ n m, locCount s'.output_dict n m
          = locCount s.output_dict n m
            + (if m = l.name
                then nameMult n (scannedPeople s.people_entities_buffer l)
                else 0) := by
  obtain ⟨s', hs'⟩ := hleu_some_of_WF l s h
  obtain ⟨-, hp, hl⟩ := hleu_inv hs'
  exact ⟨s', hs', hl, hp, hleu_locCount hs'⟩

/-- State exercising C3: Bob (distance 9) is in range, the older Alice
(distance 209) is not, so the scan stops after Bob. -/
def stateW3 : EngineState :=
  { output_dict := [⟨"Alice", 1, []⟩, ⟨"Bob", 1, []⟩],
    people_entities_buffer := [⟨"Alice", 0, 1⟩, ⟨"Bob", 200, 201⟩],
    loc_entities_buffer := [] }

/-- Witness for C3 at a concrete input, discharging the key-presence
hypothesis by evaluation. -/
theorem C3_loc_scan_and_stop_witness :
    ∃ s', handle_loc_entity_update ⟨"Rome", 210, 211⟩ stateW3 = some s'
      ∧ s'.loc_entities_buffer
        = stateW3.loc_entities_buffer ++ [⟨"Rome", 210, 211⟩]
      ∧ s'.people_entities_buffer = stateW3.people_entities_buffer
      ∧ ∀ n m, locCount s'.output_dict n m
          = locCount stateW3.output_dict n m
            + (if m = "Rome"
                then nameMult n (scannedPeople stateW3.people_entities_buffer
                  ⟨"Rome", 210, 211⟩)
                else 0) :=
  C3_loc_scan_and_stop stateW3 ⟨"Rome", 210, 211⟩ (by decide)

/-! ## Claim C4 -/

/-- A stream with a single PERSON–LOC pair at distance 499, far outside
the proximity window: there is no qualifying encounter at all. -/
def streamC4 : List LabeledEntity :=
  [(EntityLabel.LOC, ⟨"Paris", 0, 1⟩), (EntityLabel.PERSON, ⟨"Alice", 500, 501⟩)]

/-- Claim C4 (code_bug): the claim states that the recorded count for a
location under a person equals the number of within-100 pair-encounters,
and that a location appears under a person only if such an encounter
happened.  On the code this is false: at the failing input the only
PERSON–LOC pair is 499 word positions apart, yet the output records Paris
under Alice with count 1 (the PERSON-case scan ignores the range check's
result). -/
theorem C4_out_of_range_pair_is_counted :
    associate streamC4
      = some [{ name := "Alice", count := 1,
                locations := [{ name := "Paris", count := 1 }] }] := rfl

/-! ## Claim C5 -/

/-- The concrete scenario stream of the spec's testable properties. -/
def streamC5 : List LabeledEntity :=
  [(EntityLabel.PERSON, ⟨"Alice", 0, 1⟩), (EntityLabel.LOC, ⟨"Paris", 5, 6⟩),
   (EntityLabel.PERSON, ⟨"Bob", 250, 251⟩), (EntityLabel.LOC, ⟨"Rome", 252, 253⟩)]

/-- What the code actually produces on `streamC5`. -/
def outputC5_actual : List PersonOut :=
  [⟨"Alice", 1, [⟨"Paris", 1⟩]⟩, ⟨"Bob", 1, [⟨"Paris", 1⟩, ⟨"Rome", 1⟩]⟩]

/-- The output the claim demands on `streamC5`. -/
def outputC5_claimed : List PersonOut :=
  [⟨"Alice", 1, [⟨"Paris", 1⟩]⟩, ⟨"Bob", 1, [⟨"Rome", 1⟩]⟩]

/-- Claim C5 (code_bug): on the spec's concrete scenario the claim demands
that the Bob–Paris association (distance 244) must not appear; the code
produces it anyway, because the PERSON-case scan counts every buffered
location regardless of distance and the out-of-range Paris is never
evicted.  The code's actual output differs from the claimed one exactly
by the extra Paris record under Bob. -/
theorem C5_scenario_has_bob_paris :
    associate streamC5 = some outputC5_actual
      ∧ associate streamC5 ≠ some outputC5_claimed := by
  refine ⟨rfl, ?_⟩
  intro h
  rw [show associate streamC5 = some outputC5_actual from rfl] at h
  simp only [Option.some_inj] at h
  exact absurd h (by decide)

/-! ## Claim C7 -/

/-- Claim C7 (confirmed): after processing any stream from the fresh
state, the stored count under any name equals the number of PERSON spans
with exactly that surface string in the stream; every record of the
projected output carries that same number; and the characterization is
preserved by every single call of either kind (a PERSON call adds one to
its own name, a LOC call changes no count).  Quantifying over all streams
covers every prefix, hence every point during processing. -/
theorem C7_person_count_invariant (ss : List LabeledEntity) (s' : EngineState)
    (h : processStream ss emptyState = some s') :
    (∀ n, countOf s'.output_dict n = nameMult n (personsOf ss))
      ∧ (∀ r ∈ project s'.output_dict, r.count = nameMult r.name (personsOf ss))
      ∧ ∀ (lbl : EntityLabel) (e : PositionalEntityDict) (t t' : EngineState),
          handle_positional_entity_update lbl e t = some t' →
          ∀ n, countOf t'.output_dict n
            = countOf t.output_dict n
              + (if lbl = EntityLabel.PERSON ∧ e.name = n then 1 else 0) := by
  have h1 : ∀ n, countOf s'.output_dict n = nameMult n (personsOf ss) := by
    intro n
    have := run_countOf ss emptyState s' h n
    simpa [emptyState, countOf, dict_lookup] using this
  refine ⟨h1, ?_, fun lbl e t t' ht n => step_countOf ht n⟩
  intro r hr
  obtain ⟨r0, hr0, hr0eq⟩ := List.mem_map.mp hr
  have hnd : (s'.output_dict.map fun x => x.name).Nodup :=
    run_nodup ss emptyState s' h (by simp [emptyState])
  have hlook : dict_lookup s'.output_dict r0.name = some r0 :=
    dict_lookup_of_mem_nodup hnd hr0
  have hcnt : countOf s'.output_dict r0.name = r0.count := by
    rw [countOf, hlook]
  subst hr0eq
  show r0.count = nameMult r0.name (personsOf ss)
  rw [← hcnt]
  exact h1 r0.name

/-- Stream exercising C7: two PERSON spans of the same string plus one
location. -/
def ssW7 : List LabeledEntity :=
  [(EntityLabel.PERSON, ⟨"Alice", 0, 1⟩), (EntityLabel.PERSON, ⟨"Alice", 3, 4⟩),
   (EntityLabel.LOC, ⟨"Paris", 5, 6⟩)]

/-- The state the engine reaches on `ssW7`. -/
def sW7 : EngineState :=
  { output_dict := [⟨"Alice", 2, [⟨"Paris", 2⟩]⟩],
    people_entities_buffer := [⟨"Alice", 0, 1⟩, ⟨"Alice", 3, 4⟩],
    loc_entities_buffer := [⟨"Paris", 5, 6⟩] }

/-- Witness for C7 at a concrete input: Alice was tagged PERSON twice, and
the stored count is 2. -/
theorem C7_person_count_invariant_witness :
    countOf sW7.output_dict "Alice" = nameMult "Alice" (personsOf ssW7) :=
  (C7_person_count_invariant ssW7 sW7 rfl).1 "Alice"

/-! ## Claim C8 -/

/-- Claim C8 (confirmed): if a stream contains no PERSON span the
projected output is empty, and on any stream every emitted record has
count at least one. -/
theorem C8_empty_and_positive (ss : List LabeledEntity) (out : List PersonOut)
    (h : associate ss = some out) :
    (personsOf ss = [] → out = []) ∧ ∀ r ∈ out, 1 ≤ r.count := by
  unfold associate at h
  cases hps : processStream ss emptyState with
  | none => rw [hps] at h; simp at h
  | some sF =>
      rw [hps] at h
      simp only [Option.map_some', Option.some_inj] at h
      subst h
      constructor
      · intro hper
        obtain ⟨h1, -⟩ := run_no_persons ss emptyState sF hper rfl hps
        rw [h1]
        rfl
      · intro r hr
        obtain ⟨r0, hr0, hr0eq⟩ := List.mem_map.mp hr
        have := run_counts_pos ss emptyState sF hps (by simp [emptyState]) r0 hr0
        subst hr0eq
        exact this

/-- Witness for C8: a stream with a single LOC span yields the empty
output, whose records vacuously all have positive counts. -/
theorem C8_empty_and_positive_witness :
    (personsOf [((EntityLabel.LOC : EntityLabel), (⟨"Paris", 0, 1⟩ : PositionalEntityDict))] = [] →
        ([] : List PersonOut) = [])
      ∧ ∀ r ∈ ([] : List PersonOut), 1 ≤ r.count :=
  C8_empty_and_positive [(EntityLabel.LOC, ⟨"Paris", 0, 1⟩)] [] rfl

/-! ## Claim C9 -/

/-- Claim C9 (confirmed): processing any stream from the fresh state never
fails — the unguarded `output_dict[person["name"]]` of the LOC handler
never raises — because at every reachable state each name in
`people_entities_buffer` is a key of `output_dict` (the PERSON handler
inserts the record in the same call that appends to the buffer). -/
theorem C9_buffered_names_are_keys (ss : List LabeledEntity) :
    ∃ s', processStream ss emptyState = some s'
      ∧ ∀ q ∈ s'.people_entities_buffer,
          (dict_lookup s'.output_dict q.name).isSome := by
  obtain ⟨s', h1, h2, -, -, -, -⟩ := run_spec ss emptyState emptyState_WF
  exact ⟨s', h1, h2⟩

/-! ## Claim C10 -/

/-- Claim C10 (confirmed): a LOC call never changes any person record's
count, never adds or removes keys of the aggregate map (names and their
order are preserved), leaves `people_entities_buffer` untouched, appends
the entity at the tail of `loc_entities_buffer`, and inside the nested
locations maps only the incoming location's own name can change, and only
by increment. -/
theorem C10_loc_call_frame (s : EngineState) (l : PositionalEntityDict)
    (s' : EngineState) (h : handle_loc_entity_update l s = some s') :
    s'.people_entities_buffer = s.people_entities_buffer
      ∧ s'.loc_entities_buffer = s.loc_entities_buffer ++ [l]
      ∧ s'.output_dict.map (fun r => r.name) = s.output_dict.map (fun r => r.name)
      ∧ (∀ n, (dict_lookup s'.output_dict n).map (fun r => r.count)
          = (dict_lookup s.output_dict n).map (fun r => r.count))
      ∧ (∀ n m, m ≠ l.name → locCount s'.output_dict n m = locCount s.output_dict n m)
      ∧ (∀ n, locCount s.output_dict n l.name ≤ locCount s'.output_dict n l.name) := by
  obtain ⟨-, hp, hl⟩ := hleu_inv h
  refine ⟨hp, hl, hleu_map_name h, hleu_lookup_count h, ?_, ?_⟩
  · intro n m hm
    rw [hleu_locCount h n m, if_neg hm]
    omega
  · intro n
    rw [hleu_locCount h n l.name]
    omega

/-- State and location exercising C10. -/
def stateW10 : EngineState := ⟨[⟨"Alice", 1, []⟩], [⟨"Alice", 0, 1⟩], []⟩

/-- The state after the C10 witness call. -/
def stateW10' : EngineState :=
  ⟨[⟨"Alice", 1, [⟨"Paris", 1⟩]⟩], [⟨"Alice", 0, 1⟩], [⟨"Paris", 5, 6⟩]⟩

/-- Witness for C10 at a concrete input: keys and the person count survive
the LOC call unchanged while the buffer is appended. -/
theorem C10_loc_call_frame_witness :
    stateW10'.people_entities_buffer = stateW10.people_entities_buffer
      ∧ stateW10'.loc_entities_buffer
        = stateW10.loc_entities_buffer ++ [⟨"Paris", 5, 6⟩]
      ∧ stateW10'.output_dict.map (fun r => r.name)
        = stateW10.output_dict.map (fun r => r.name) := by
  have h := C10_loc_call_frame stateW10 ⟨"Paris", 5, 6⟩ stateW10' rfl
  exact ⟨h.1, h.2.1, h.2.2.1⟩

/-! ## Claim C6 -/

/-- Streams as the upstream NER oracle produces them (spec sections 6-7):
every span has `start ≤ end` and spans do not overlap and come in document
order, so any earlier span ends no later than any later span starts. -/
def OrderedStream (ss : List LabeledEntity) : Prop :=
  (∀ e ∈ ss, e.2.start ≤ e.2.end_)
    ∧ ss.Pairwise fun a b => a.2.end_ ≤ b.2.start

theorem mem_personsOf {x : PositionalEntityDict} {l : List LabeledEntity}
    (hx : x ∈ personsOf l) : (EntityLabel.PERSON, x) ∈ l := by
  unfold personsOf at hx
  obtain ⟨e, he, heq⟩ := List.mem_filterMap.mp hx
  obtain ⟨lbl, ent⟩ := e
  cases lbl with
  | PERSON =>
      simp only [Option.some_inj] at heq
      subst heq
      exact he
  | LOC => simp at heq

theorem takeWhile_has_mem {α : Type} (p : α → Bool) (xs zs : List α) (y : α)
    (hxs : ∀ x ∈ xs, p x = true) (hy : p y = true) :
    y ∈ (xs ++ y :: zs).takeWhile p := by
  induction xs with
  | nil =>
      simp only [List.nil_append, List.takeWhile_cons, hy, if_true]
      exact List.mem_cons_self y _
  | cons x rest ih =>
      have hx : p x = true := hxs x (List.mem_cons_self x rest)
      simp only [List.cons_append, List.takeWhile_cons, hx, if_true]
      exact List.mem_cons_of_mem x (ih fun a ha => hxs a (List.mem_cons_of_mem x ha))

theorem locCount_pos_output {d : List NamedEntityDict} {pn ln : String}
    (h : 1 ≤ locCount d pn ln) :
    ∃ r ∈ project d, r.name = pn
      ∧ ∃ lr ∈ r.locations, lr.name = ln ∧ 1 ≤ lr.count := by
  rw [locCount] at h
  cases hl : dict_lookup d pn with
  | none => rw [hl] at h; simp at h
  | some r0 =>
      rw [hl] at h
      obtain ⟨lr, hlr, hlrn, hlrc⟩ := get_loc_count_pos_mem h
      refine ⟨⟨r0.name, r0.count, r0.locations⟩, ?_, dict_lookup_name hl, lr, hlr,
        hlrn, hlrc⟩
      exact List.mem_map.mpr ⟨r0, dict_lookup_mem hl, rfl⟩

/-- Claim C6 (confirmed): for a stream in non-decreasing position order
(non-overlapping spans, as the NER oracle yields them), every PERSON/LOC
pair whose relevant word distance — `abs(person.end - loc.start)` when the
person comes first, `abs(loc.end - person.start)` when the location comes
first — is at most 100 ends up associated in the output with count at
least 1.  The comparator in the code is a strict `> 100`, so distance
exactly 100 is in range, matching the claim's boundary. -/
theorem C6_in_range_pairs_are_associated (ss u v w : List LabeledEntity)
    (P L : PositionalEntityDict)
    (hord : OrderedStream ss)
    (hshape :
      (ss = u ++ (EntityLabel.PERSON, P) :: v ++ (EntityLabel.LOC, L) :: w
          ∧ (P.end_ - L.start).natAbs ≤ 100)
        ∨ (ss = u ++ (EntityLabel.LOC, L) :: v ++ (EntityLabel.PERSON, P) :: w
          ∧ (L.end_ - P.start).natAbs ≤ 100)) :
    ∃ out, associate ss = some out
      ∧ ∃ r ∈ out, r.name = P.name
        ∧ ∃ lr ∈ r.locations, lr.name = L.name ∧ 1 ≤ lr.count := by
  rcases hshape with ⟨hss, hdist⟩ | ⟨hss, hdist⟩
  · -- the PERSON span comes first; the LOC handler of L reaches it
    subst hss
    obtain ⟨hse, hpw⟩ := hord
    -- the stream reads ((u ++ (PERSON, P) :: v) ++ ((LOC, L) :: w))
    obtain ⟨hpw1, -, hrel12⟩ := List.pairwise_append.mp hpw
    obtain ⟨-, hpwPv, -⟩ := List.pairwise_append.mp hpw1
    obtain ⟨hPrel, -⟩ := List.pairwise_cons.mp hpwPv
    have hPmem : (EntityLabel.PERSON, P) ∈ u ++ (EntityLabel.PERSON, P) :: v :=
      List.mem_append_right _ (List.mem_cons_self _ _)
    have hPL : P.end_ ≤ L.start := by
      have := hrel12 (EntityLabel.PERSON, P) hPmem (EntityLabel.LOC, L)
        (List.mem_cons_self _ _)
      simpa using this
    -- run the prefix up to and including the PERSON span
    obtain ⟨s1, hrun1, hWF1, hp1, hl1, -, -⟩ :=
      run_spec (u ++ (EntityLabel.PERSON, P) :: v) emptyState emptyState_WF
    simp only [emptyState, List.nil_append] at hp1 hl1
    -- the LOC step for L
    obtain ⟨s2, hstep2, hWF2, -, -, -, -⟩ := step_spec EntityLabel.LOC L s1 hWF1
    have hstep2' : handle_loc_entity_update L s1 = some s2 := hstep2
    -- P is inside the in-range scanned tail of the reversed people buffer
    have hscan : 1 ≤ nameMult P.name (scannedPeople s1.people_entities_buffer L) := by
      have hpeople : s1.people_entities_buffer
          = personsOf u ++ P :: personsOf v := by
        rw [hp1, personsOf_append]
        rfl
      have hrev : s1.people_entities_buffer.reverse
          = (personsOf v).reverse ++ P :: (personsOf u).reverse := by
        rw [hpeople]
        simp
      have hmem : P ∈ scannedPeople s1.people_entities_buffer L := by
        rw [scannedPeople, hrev]
        apply takeWhile_has_mem
        · intro x hx
          have hxv : x ∈ personsOf v := List.mem_reverse.mp hx
          have hxin : (EntityLabel.PERSON, x) ∈ v := mem_personsOf hxv
          have h1 : P.end_ ≤ x.start := by
            have := hPrel (EntityLabel.PERSON, x) hxin
            simpa using this
          have h2 : x.end_ ≤ L.start := by
            have := hrel12 (EntityLabel.PERSON, x)
              (List.mem_append_right _ (List.mem_cons_of_mem _ hxin))
              (EntityLabel.LOC, L) (List.mem_cons_self _ _)
            simpa using this
          have h3 : x.start ≤ x.end_ := by
            have := hse (EntityLabel.PERSON, x) (by simp [hxin])
            simpa using this
          simp only [decide_eq_true_eq]
          omega
        · simp only [decide_eq_true_eq]
          omega
      exact nameMult_pos_of_mem hmem rfl
    have hcount2 : 1 ≤ locCount s2.output_dict P.name L.name := by
      rw [hleu_locCount hstep2' P.name L.name, if_pos rfl]
      omega
    -- run the remaining suffix
    obtain ⟨sF, hrun3, -, -, -, hmono3, -⟩ := run_spec w s2 hWF2
    have hcountF : 1 ≤ locCount sF.output_dict P.name L.name :=
      le_trans hcount2 (hmono3 P.name L.name)
    -- assemble the whole run
    have hfull : processStream
        (u ++ (EntityLabel.PERSON, P) :: v ++ (EntityLabel.LOC, L) :: w)
        emptyState = some sF := by
      rw [processStream_append, hrun1]
      show processStream ((EntityLabel.LOC, L) :: w) s1 = some sF
      rw [processStream]
      rw [show handle_positional_entity_update EntityLabel.LOC L s1 = some s2
        from hstep2]
      exact hrun3
    refine ⟨project sF.output_dict, ?_, locCount_pos_output hcountF⟩
    rw [associate, hfull]
    rfl
  · -- the LOC span comes first; the PERSON handler of P counts it
    subst hss
    obtain ⟨s1, hrun1, hWF1, hp1, hl1, -, -⟩ :=
      run_spec (u ++ (EntityLabel.LOC, L) :: v) emptyState emptyState_WF
    simp only [emptyState, List.nil_append] at hp1 hl1
    have hLmem : L ∈ s1.loc_entities_buffer := by
      rw [hl1, locsOf_append]
      refine List.mem_append_right _ ?_
      show L ∈ L :: locsOf v
      exact List.mem_cons_self _ _
    obtain ⟨s2, hstep2, hWF2, -, -, -, -⟩ := step_spec EntityLabel.PERSON P s1 hWF1
    have hs2 : s2 = handle_person_entity_update P s1 := by
      simp only [handle_positional_entity_update, Option.some_inj] at hstep2
      exact hstep2.symm
    have hcount2 : 1 ≤ locCount s2.output_dict P.name L.name := by
      rw [hs2, hpeu_locCount_self]
      have := nameMult_pos_of_mem hLmem (rfl : L.name = L.name)
      omega
    obtain ⟨sF, hrun3, -, -, -, hmono3, -⟩ := run_spec w s2 hWF2
    have hcountF : 1 ≤ locCount sF.output_dict P.name L.name :=
      le_trans hcount2 (hmono3 P.name L.name)
    have hfull : processStream
        (u ++ (EntityLabel.LOC, L) :: v ++ (EntityLabel.PERSON, P) :: w)
        emptyState = some sF := by
      rw [processStream_append, hrun1]
      show processStream ((EntityLabel.PERSON, P) :: w) s1 = some sF
      rw [processStream]
      rw [show handle_positional_entity_update EntityLabel.PERSON P s1 = some s2
        from hstep2]
      exact hrun3
    refine ⟨project sF.output_dict, ?_, locCount_pos_output hcountF⟩
    rw [associate, hfull]
    rfl

/-- Witness for C6 at a concrete input: Alice at words 0-1 and Paris at
words 5-6 are 4 word positions apart, and the pair is associated. -/
theorem C6_in_range_pairs_are_associated_witness :
    ∃ out, associate [((EntityLabel.PERSON : EntityLabel),
          (⟨"Alice", 0, 1⟩ : PositionalEntityDict)),
        (EntityLabel.LOC, ⟨"Paris", 5, 6⟩)] = some out
      ∧ ∃ r ∈ out, r.name = (⟨"Alice", 0, 1⟩ : PositionalEntityDict).name
        ∧ ∃ lr ∈ r.locations,
            lr.name = (⟨"Paris", 5, 6⟩ : PositionalEntityDict).name
              ∧ 1 ≤ lr.count :=
  C6_in_range_pairs_are_associated _ [] [] [] ⟨"Alice", 0, 1⟩ ⟨"Paris", 5, 6⟩
    ⟨by decide, by decide⟩ (Or.inl ⟨rfl, by decide⟩)

end App
